import Mathlib

/-!
Verification of the capability matching and ranking engine
(`ActionMatcher` in `src/matching-utils.ts`).

Strings are modeled as lists of characters (`Str`), JavaScript numbers as
exact rationals (`ℚ`); the one place where IEEE semantics is observable in
this code is division by zero (`0 / 0 = NaN`), which is modeled explicitly
with `Option ℚ` (`none` = NaN) in `jaccardSimilarity` and `wordSimilarity`.
JavaScript `Set`s are modeled as duplicate-free lists in insertion order.
-/

namespace ThinkMatching

/-- Strings as lists of characters. -/
abbrev Str := List Char

/-- `s.toLowerCase()` (ASCII model: per-character lowercasing). -/
def strLower (s : Str) : Str := s.map Char.toLower

/-- A character matched by the regex class `\w` = `[A-Za-z0-9_]`. -/
def isWordChar (c : Char) : Bool := c.isAlphanum || c == '_'

/-- Helper for `splitWs`: accumulates the current token (reversed). -/
def splitWsAux : List Char → List Char → List Str
  | [], acc => [acc.reverse]
  | c :: cs, acc =>
    if c.isWhitespace then acc.reverse :: splitWsAux cs []
    else splitWsAux cs (c :: acc)

/-- `s.split(/\s+/)` (ASCII model). Splitting here can produce extra empty
tokens on whitespace runs compared to the regex split; both variants produce
the same result once tokens of length ≤ 2 are filtered out, which is the
only context in which the split is used (`extractKeyTerms`). -/
def splitWs (s : Str) : List Str := splitWsAux s []

/-- Helper for `jsSet`: keeps the first occurrence of each element. -/
def jsSetAux {α : Type} [DecidableEq α] (seen : List α) : List α → List α
  | [] => []
  | x :: xs => if x ∈ seen then jsSetAux seen xs else x :: jsSetAux (x :: seen) xs

/-- `new Set(l)` as a list: deduplicated, first occurrences, insertion order. -/
def jsSet {α : Type} [DecidableEq α] (l : List α) : List α := jsSetAux [] l

/-- `ActionMatcher.extractKeyTerms`: lowercase, strip characters that are
neither word characters nor whitespace, split on whitespace, keep tokens of
length > 2, deduplicate into a set. -/
def extractKeyTerms (text : Str) : List Str :=
  jsSet ((splitWs ((strLower text).filter
      (fun c => isWordChar c || c.isWhitespace))).filter (fun w => 2 < w.length))

/-- `ActionMatcher.jaccardSimilarity`, exactly as in the source: the division
`intersection.size / union.size` is not guarded, so when both sets are empty
the JavaScript result is `0 / 0 = NaN`, modeled as `none`. -/
def jaccardSimilarity (set1 set2 : List Str) : Option ℚ :=
  let intersection := jsSet (set1.filter (fun x => x ∈ set2))
  let union := jsSet (set1 ++ set2)
  if union.length = 0 then none
  else some ((intersection.length : ℚ) / (union.length : ℚ))

/-- The value of `jaccardSimilarity` on the inputs where it is defined
(every call site inside `calculateMatchScore` has a nonempty union, see
`jaccardSimilarity_eq_some`). -/
def jaccardQ (set1 set2 : List Str) : ℚ :=
  ((jsSet (set1.filter (fun x => x ∈ set2))).length : ℚ)
    / ((jsSet (set1 ++ set2)).length : ℚ)

/-- `ActionMatcher.longestCommonPrefix` (the while-loop, recursively). -/
def longestCommonPrefixStr : Str → Str → Str
  | c1 :: t1, c2 :: t2 =>
    if c1 = c2 then c1 :: longestCommonPrefixStr t1 t2 else []
  | _, _ => []

/-- `ActionMatcher.getWordSimilarity`: length of the longest common prefix of
the lowercased words divided by the longer of the two original lengths.
When both words are empty this divides `0 / 0 = NaN`, modeled as `none`. -/
def wordSimilarity (word1 word2 : Str) : Option ℚ :=
  let p := longestCommonPrefixStr (strLower word1) (strLower word2)
  let maxLength := max word1.length word2.length
  if maxLength = 0 then none else some ((p.length : ℚ) / (maxLength : ℚ))

/-- `Math.max` on possibly-NaN values: NaN absorbs. -/
def jsMax : Option ℚ → Option ℚ → Option ℚ
  | some a, some b => some (max a b)
  | _, _ => none

/-- The inner loop of `calculateCapabilitySimilarity`: best similarity of one
query tag against all action capabilities, starting from `bestMatch = 0`. -/
def bestMatchFor (actionCapabilities : List Str) (queryCap : Str) : Option ℚ :=
  actionCapabilities.foldl (fun best cap => jsMax best (wordSimilarity queryCap cap)) (some 0)

/-- One iteration of the outer loop of `calculateCapabilitySimilarity`:
the accumulator is `(totalSimilarity, matches)`; a query tag contributes only
when its best similarity strictly exceeds `0.7` (`NaN > 0.7` is false). -/
def capStep (actionCapabilities : List Str) (acc : ℚ × ℕ) (queryCap : Str) : ℚ × ℕ :=
  match bestMatchFor actionCapabilities queryCap with
  | some b => if 7/10 < b then (acc.1 + b, acc.2 + 1) else acc
  | none => acc

/-- `ActionMatcher.calculateCapabilitySimilarity`. -/
def calculateCapabilitySimilarity (actionCapabilities queryCapabilities : List Str) : ℚ :=
  let r := queryCapabilities.foldl (capStep actionCapabilities) (0, 0)
  if 0 < r.2 then r.1 / (r.2 : ℚ) else 0

/-- The query shape accepted by `calculateMatchScore` / `rankActions`. -/
structure Query where
  keywords : Option (List Str) := none
  capabilities : Option (List Str) := none
  contextTerms : Option (List Str) := none
deriving DecidableEq

/-- An action descriptor. The source accesses the fields of an untyped
(`any`) value; a `none` field models a missing (`undefined`) field, which
makes `extractKeyTerms` on it throw (`undefined.toLowerCase()`). -/
structure Action where
  name : Option Str := none
  description : Option Str := none
  similes : Option (List Str) := none
  capabilities : Option (List Str) := none
deriving DecidableEq

/-- The `matches` object of a `MatchScore`: per-field scores, absent unless
the corresponding branch of `calculateMatchScore` ran. -/
structure Matches where
  name : Option ℚ := none
  description : Option ℚ := none
  similes : Option ℚ := none
  capabilities : Option ℚ := none
deriving DecidableEq

/-- The result type of `calculateMatchScore`. -/
structure MatchScore where
  score : ℚ
  «matches» : Matches
deriving DecidableEq

/-- The `weights` table of `calculateMatchScore`. -/
def weightOf (k : String) : ℚ :=
  if k = "name" then 4/10
  else if k = "description" then 3/10
  else if k = "similes" then 1/10
  else if k = "capabilities" then 2/10
  else 0

/-- `Object.entries(scores.matches)`: the present fields, in insertion order
(name, description, similes, capabilities). -/
def matchEntries (m : Matches) : List (String × ℚ) :=
  (match m.name with | some v => [("name", v)] | none => [])
    ++ (match m.description with | some v => [("description", v)] | none => [])
    ++ (match m.similes with | some v => [("similes", v)] | none => [])
    ++ (match m.capabilities with | some v => [("capabilities", v)] | none => [])

/-- The final-score reduce of `calculateMatchScore`:
`Object.entries(scores.matches).reduce((sum, [key, value]) => sum + value * weights[key], 0)`. -/
def weightedSum (m : Matches) : ℚ :=
  (matchEntries m).foldl (fun sum e => sum + e.2 * weightOf e.1) 0

/-- JavaScript string coercion of a possibly-undefined string (used by
`action.description + ' ' + action.name`, which does not throw: `undefined`
coerces to the string `"undefined"`). -/
def jsStringOf : Option Str → Str
  | some s => s
  | none => "undefined".toList

/-- `new Set(query.keywords.map(k => k.toLowerCase()))`. -/
def queryTermsOf (ks : List Str) : List Str := jsSet (ks.map strLower)

/-- The name-matching block of `calculateMatchScore`. A thrown error
(`extractKeyTerms` on a missing `action.name`) is an `Except.error` carrying
the matches accumulated so far, as the source's `catch` observes them. -/
def nameStep (action : Action) (query : Query) (m : Matches) : Except Matches Matches :=
  match query.keywords with
  | some ks =>
    if 0 < ks.length then
      match action.name with
      | some nm =>
        .ok { m with name := some (jaccardQ (extractKeyTerms nm) (queryTermsOf ks)) }
      | none => .error m
    else .ok m
  | none => .ok m

/-- The description-matching block of `calculateMatchScore` (the stored field
score is pre-scaled by `0.8`). -/
def descriptionStep (action : Action) (query : Query) (m : Matches) : Except Matches Matches :=
  match query.keywords with
  | some ks =>
    if 0 < ks.length then
      match action.description with
      | some d =>
        let v := jaccardQ (extractKeyTerms d) (queryTermsOf ks) * (8/10)
        .ok { m with description := some v }
      | none => .error m
    else .ok m
  | none => .ok m

/-- The similes-matching block of `calculateMatchScore` (guarded by
`action.similes?.length > 0`, so a missing field does not throw; the stored
field score is pre-scaled by `0.6`). -/
def similesStep (action : Action) (query : Query) (m : Matches) : Except Matches Matches :=
  match query.keywords with
  | some ks =>
    if 0 < ks.length then
      match action.similes with
      | some ss =>
        if 0 < ss.length then
          let v := jaccardQ (extractKeyTerms (List.intercalate [' '] ss)) (queryTermsOf ks) * (6/10)
          .ok { m with similes := some v }
        else .ok m
      | none => .ok m
    else .ok m
  | none => .ok m

/-- The capability-matching block of `calculateMatchScore`. Note
`action.capabilities || ...`: an empty array is truthy in JavaScript, so the
fallback to terms derived from name+description applies only when the
`capabilities` field is absent. -/
def capabilitiesStep (action : Action) (query : Query) (m : Matches) : Except Matches Matches :=
  match query.capabilities with
  | some qcs =>
    if 0 < qcs.length then
      let actionCapabilities : List Str :=
        match action.capabilities with
        | some caps => caps
        | none => extractKeyTerms (jsStringOf action.description ++ ' ' :: jsStringOf action.name)
      let v := calculateCapabilitySimilarity actionCapabilities qcs
      .ok { m with capabilities := some v }
    else .ok m
  | none => .ok m

/-- The body of the `try` block of `calculateMatchScore`: the four field
blocks in source order; an error short-circuits to the `catch`. -/
def scoreFieldsRun (action : Action) (query : Query) : Except Matches Matches :=
  match nameStep action query {} with
  | .error m => .error m
  | .ok m1 =>
    match descriptionStep action query m1 with
    | .error m => .error m
    | .ok m2 =>
      match similesStep action query m2 with
      | .error m => .error m
      | .ok m3 => capabilitiesStep action query m3

/-- `ActionMatcher.calculateMatchScore`. On an error the source's `catch`
forces `score = 0` but leaves the already-assigned field scores in
`scores.matches` untouched. -/
def calculateMatchScore (action : Action) (query : Query) : MatchScore :=
  match scoreFieldsRun action query with
  | .ok m => { score := weightedSum m, «matches» := m }
  | .error m => { score := 0, «matches» := m }

/-- The `Promise.all(actions.map(...))` step of `rankActions`
(order-preserving). -/
def scoredActions (actions : List Action) (query : Query) : List (Action × MatchScore) :=
  actions.map (fun action => (action, calculateMatchScore action query))

/-- The sort order of `rankActions`' comparator `(a, b) => b.score - a.score`:
`x` may come before `y` iff `y`'s score is not larger. -/
def scoreGe (x y : Action × MatchScore) : Prop := y.2.score ≤ x.2.score

instance : DecidableRel scoreGe :=
  fun x y => (inferInstance : Decidable (y.2.score ≤ x.2.score))

instance : IsTotal (Action × MatchScore) scoreGe := ⟨fun x y => le_total y.2.score x.2.score⟩

instance : IsTrans (Action × MatchScore) scoreGe := ⟨fun _ _ _ h1 h2 => le_trans h2 h1⟩

/-- `.sort((a, b) => b.score.score - a.score.score)`. `Array.prototype.sort`
is specified to be stable, and a stable descending sort is extensionally
determined; insertion sort with `scoreGe` places each element before the
later-in-catalog elements of equal score, which is exactly stability. -/
def sortByScoreDesc (l : List (Action × MatchScore)) : List (Action × MatchScore) :=
  List.insertionSort scoreGe l

/-- `l.slice(0, e)` with JavaScript semantics: a negative end index counts
from the end of the array. -/
def jsSlice {α : Type} (l : List α) (e : ℤ) : List α :=
  if e < 0 then l.take (l.length + e).toNat else l.take e.toNat

/-- The `options` parameter of `rankActions`; a `none` field models an
omitted property. -/
structure RankOptions where
  minScore : Option ℚ := none
  maxResults : Option ℤ := none

/-- `ActionMatcher.rankActions`: score all, filter by `score >= minScore`,
stable-sort descending, `slice(0, maxResults)`. The destructuring defaults
`minScore = 0.3`, `maxResults = 50` apply exactly when the property is
omitted; no validation is performed. -/
def rankActions (actions : List Action) (query : Query) (options : RankOptions) :
    List (Action × MatchScore) :=
  let minScore := options.minScore.getD (3/10)
  let maxResults := options.maxResults.getD 50
  jsSlice (sortByScoreDesc ((scoredActions actions query).filter
    (fun r => minScore ≤ r.2.score))) maxResults

/-- Spec-side definition for the refinement claim about the name field score
(spec §4.3): `jaccard(normalize(descriptor.name), normalize(joined
query.keywords))`, i.e. the query side fully normalized, present only if
`query.keywords` is non-empty. To be compared with what the code computes. -/
def specNameScore (action : Action) (query : Query) : Option ℚ :=
  match query.keywords, action.name with
  | some ks, some nm =>
    if 0 < ks.length then
      some (jaccardQ (extractKeyTerms nm) (extractKeyTerms (List.intercalate [' '] ks)))
    else none
  | _, _ => none

/-- Spec-side formulation of the capability aggregation: the best-similarity
values of exactly those query tags whose best similarity strictly exceeds
`0.7`. -/
def capMatchedVals (actionCapabilities queryCapabilities : List Str) : List ℚ :=
  queryCapabilities.filterMap (fun qc =>
    match bestMatchFor actionCapabilities qc with
    | some b => if 7/10 < b then some b else none
    | none => none)

/-- `a.getD i`, the character of `s` at index `i` (the source only reads
indices in bounds; the default is irrelevant). -/
def chrAt (s : Str) (i : ℕ) : Char := s.getD i ' '

/-- The substitution cost `a[i - 1] === b[j - 1] ? 0 : 1` (0-indexed here). -/
def levCost (a b : Str) (i j : ℕ) : ℕ := if chrAt a i = chrAt b j then 0 else 1

/-- One inner loop of `levenshteinDistance` (row `j` of the matrix): `left`
is `matrix[j][i-1]`, `prev` the tail of row `j-1` starting at column `i-1`. -/
def levNextRow (bj : Char) : List Char → ℕ → List ℕ → List ℕ
  | [], _, _ => []
  | c :: cs, left, prev =>
    match prev with
    | p0 :: p1 :: ps =>
      let cost := if c = bj then 0 else 1
      let v := min (left + 1) (min (p1 + 1) (p0 + cost))
      v :: levNextRow bj cs v (p1 :: ps)
    | _ => []

/-- The outer loop of `levenshteinDistance`: fold the rows, with `prev` the
row with index `j`. -/
def levRows (a : Str) : List Char → ℕ → List ℕ → List ℕ
  | [], _, prev => prev
  | bj :: bs, j, prev => levRows a bs (j + 1) ((j + 1) :: levNextRow bj a (j + 1) prev)

/-- `ActionMatcher.levenshteinDistance`: early returns on empty inputs, then
the Wagner–Fischer matrix; the answer is `matrix[b.length][a.length]`. -/
def levenshteinDistance (a b : Str) : ℕ :=
  if a.length = 0 then b.length
  else if b.length = 0 then a.length
  else (levRows a b 0 (List.range (a.length + 1))).getD a.length 0

/-- The prefix edit distance: the mathematical contents of matrix cell
`matrix[j][i]` (distance between the first `i` characters of `a` and the
first `j` characters of `b`), used to verify the matrix computation. -/
def perd (a b : Str) : ℕ → ℕ → ℕ
  | i, 0 => i
  | 0, j + 1 => j + 1
  | i + 1, j + 1 =>
    min (perd a b i (j + 1) + 1) (min (perd a b (i + 1) j + 1) (perd a b i j + levCost a b i j))
termination_by i j => (i, j)


/-- Spec-side composite score (§4.4): `Σ fieldScore[f] * weight[f]` over
the fields actually present, weights name 0.4, description 0.3, similes 0.1,
capabilities 0.2; an absent field contributes nothing. -/
def specCompositeSum (m : Matches) : ℚ :=
  (match m.name with | some v => v * (4/10) | none => 0)
    + (match m.description with | some v => v * (3/10) | none => 0)
    + (match m.similes with | some v => v * (1/10) | none => 0)
    + (match m.capabilities with | some v => v * (2/10) | none => 0)

/-- Range invariant for the field scores stored in `scores.matches`
(description and similes are stored pre-scaled by 0.8 resp. 0.6). -/
def MatchesBounded (m : Matches) : Prop :=
  (∀ v, m.name = some v → 0 ≤ v ∧ v ≤ 1) ∧
    (∀ v, m.description = some v → 0 ≤ v ∧ v ≤ 8/10) ∧
    (∀ v, m.similes = some v → 0 ≤ v ∧ v ≤ 6/10) ∧
    (∀ v, m.capabilities = some v → 0 ≤ v ∧ v ≤ 1)

/-- The descriptors of the catalog that pass the `minScore` threshold,
paired with their scores, in catalog order. -/
def qualifying (actions : List Action) (query : Query) (s : ℚ) :
    List (Action × MatchScore) :=
  (scoredActions actions query).filter (fun r => s ≤ r.2.score)

/-! ## Basic lemmas about the JavaScript `Set` model -/

theorem mem_jsSetAux {α : Type} [DecidableEq α] (l : List α) :
    ∀ (seen : List α) (a : α), a ∈ jsSetAux seen l ↔ a ∈ l ∧ a ∉ seen := by
  induction l with
  | nil => intro seen a; simp [jsSetAux]
  | cons x xs ih =>
    intro seen a
    by_cases hx : x ∈ seen
    · rw [jsSetAux, if_pos hx, ih]
      constructor
      · exact fun ⟨h1, h2⟩ => ⟨List.mem_cons_of_mem _ h1, h2⟩
      · rintro ⟨h1, h2⟩
        rcases List.mem_cons.mp h1 with h1 | h1
        · exact absurd (h1 ▸ hx) h2
        · exact ⟨h1, h2⟩
    · rw [jsSetAux, if_neg hx]
      by_cases hax : a = x
      · subst hax; simp [hx]
      · simp only [List.mem_cons, hax, false_or, ih]

theorem mem_jsSet {α : Type} [DecidableEq α] {l : List α} {a : α} :
    a ∈ jsSet l ↔ a ∈ l := by
  rw [jsSet, mem_jsSetAux]
  simp

theorem nodup_jsSetAux {α : Type} [DecidableEq α] (l : List α) :
    ∀ seen : List α, (jsSetAux seen l).Nodup := by
  induction l with
  | nil => intro seen; simp [jsSetAux]
  | cons x xs ih =>
    intro seen
    by_cases hx : x ∈ seen
    · rw [jsSetAux, if_pos hx]; exact ih seen
    · rw [jsSetAux, if_neg hx]
      refine List.Nodup.cons (fun hmem => ?_) (ih (x :: seen))
      exact ((mem_jsSetAux xs (x :: seen) x).mp hmem).2 (List.mem_cons_self x seen)

theorem nodup_jsSet {α : Type} [DecidableEq α] (l : List α) : (jsSet l).Nodup :=
  nodup_jsSetAux l []

theorem jsSet_ne_nil {α : Type} [DecidableEq α] {l : List α} (h : l ≠ []) :
    jsSet l ≠ [] := by
  cases l with
  | nil => exact absurd rfl h
  | cons x xs => simp [jsSet, jsSetAux]

theorem jsSet_length_pos {α : Type} [DecidableEq α] {l : List α} (h : l ≠ []) :
    0 < (jsSet l).length :=
  List.length_pos.mpr (jsSet_ne_nil h)

/-! ## Jaccard similarity -/

/-- On every input with a nonempty union the unguarded division is defined
and `jaccardSimilarity` computes `jaccardQ`; `calculateMatchScore` only calls
it with a nonempty `set2` (the lowercased keywords), so using `jaccardQ`
there is faithful. -/
theorem jaccardSimilarity_eq_some (set1 set2 : List Str) (h : set1 ++ set2 ≠ []) :
    jaccardSimilarity set1 set2 = some (jaccardQ set1 set2) := by
  have hpos := jsSet_length_pos (α := Str) h
  rw [jaccardSimilarity, jaccardQ]
  simp only [if_neg (Nat.pos_iff_ne_zero.mp hpos)]

theorem jaccardQ_nonneg (set1 set2 : List Str) : 0 ≤ jaccardQ set1 set2 := by
  rw [jaccardQ]
  positivity

theorem jaccardQ_le_one (set1 set2 : List Str) : jaccardQ set1 set2 ≤ 1 := by
  rw [jaccardQ]
  have hsub : jsSet (set1.filter (fun x => x ∈ set2)) ⊆ jsSet (set1 ++ set2) := by
    intro a ha
    rw [mem_jsSet] at ha ⊢
    exact List.mem_append_left _ (List.mem_of_mem_filter ha)
  have hlen : (jsSet (set1.filter (fun x => x ∈ set2))).length ≤
      (jsSet (set1 ++ set2)).length :=
    ((nodup_jsSet _).subperm hsub).length_le
  rcases Nat.eq_zero_or_pos (jsSet (set1 ++ set2)).length with h0 | hpos
  · rw [h0]
    norm_num
  · rw [div_le_one (by exact_mod_cast hpos)]
    exact_mod_cast hlen

/-! ## Word similarity -/

theorem longestCommonPrefixStr_length_le :
    ∀ s t : Str, (longestCommonPrefixStr s t).length ≤ s.length := by
  intro s
  induction s with
  | nil => intro t; cases t <;> simp [longestCommonPrefixStr]
  | cons c1 t1 ih =>
    intro t
    cases t with
    | nil => simp [longestCommonPrefixStr]
    | cons c2 t2 =>
      rw [longestCommonPrefixStr]
      by_cases h : c1 = c2
      · rw [if_pos h]
        simpa using ih t2
      · rw [if_neg h]
        simp

theorem wordSimilarity_bounds {word1 word2 : Str} {q : ℚ}
    (h : wordSimilarity word1 word2 = some q) : 0 ≤ q ∧ q ≤ 1 := by
  rw [wordSimilarity] at h
  by_cases hm : max word1.length word2.length = 0
  · simp [hm] at h
  · rw [if_neg hm] at h
    have hq := (Option.some_inj.mp h).symm
    subst hq
    have hple : (longestCommonPrefixStr (strLower word1) (strLower word2)).length ≤
        max word1.length word2.length := by
      calc (longestCommonPrefixStr (strLower word1) (strLower word2)).length
          ≤ (strLower word1).length := longestCommonPrefixStr_length_le _ _
        _ = word1.length := by simp [strLower]
        _ ≤ max word1.length word2.length := le_max_left _ _
    have hmpos : 0 < max word1.length word2.length := Nat.pos_of_ne_zero hm
    constructor
    · positivity
    · rw [div_le_one (by exact_mod_cast hmpos)]
      exact_mod_cast hple

/-! ## Capability similarity -/

theorem foldl_jsMax_bounds (q : Str) (l : List Str) :
    ∀ (init : Option ℚ), (∀ v, init = some v → 0 ≤ v ∧ v ≤ 1) →
      ∀ b, l.foldl (fun best cap => jsMax best (wordSimilarity q cap)) init = some b →
        0 ≤ b ∧ b ≤ 1 := by
  induction l with
  | nil => intro init hinit b hb; exact hinit b hb
  | cons cap caps ih =>
    intro init hinit b hb
    rw [List.foldl_cons] at hb
    refine ih _ ?_ b hb
    intro v hv
    rcases hinit' : init with _ | i
    · rw [hinit'] at hv; simp [jsMax] at hv
    · rcases hw : wordSimilarity q cap with _ | w
      · rw [hinit', hw] at hv; simp [jsMax] at hv
      · rw [hinit', hw] at hv
        simp only [jsMax, Option.some_inj] at hv
        have hi := hinit i hinit'
        have hwb := wordSimilarity_bounds hw
        subst hv
        exact ⟨le_max_of_le_left hi.1, max_le hi.2 hwb.2⟩

theorem bestMatchFor_bounds {actionCapabilities : List Str} {queryCap : Str} {b : ℚ}
    (h : bestMatchFor actionCapabilities queryCap = some b) : 0 ≤ b ∧ b ≤ 1 := by
  refine foldl_jsMax_bounds queryCap actionCapabilities (some 0) ?_ b h
  intro v hv
  rw [Option.some_inj] at hv
  subst hv
  norm_num

theorem capFold_eq (actionCapabilities : List Str) (qs : List Str) :
    ∀ (t : ℚ) (n : ℕ),
      qs.foldl (capStep actionCapabilities) (t, n) =
        (t + (capMatchedVals actionCapabilities qs).sum,
         n + (capMatchedVals actionCapabilities qs).length) := by
  induction qs with
  | nil => intro t n; simp [capMatchedVals]
  | cons q qs ih =>
    intro t n
    rw [List.foldl_cons]
    rcases hb : bestMatchFor actionCapabilities q with _ | b
    · have hcons : capMatchedVals actionCapabilities (q :: qs) =
          capMatchedVals actionCapabilities qs := by
        simp only [capMatchedVals, List.filterMap_cons, hb]
      rw [capStep, hb, ih t n, hcons]
    · by_cases hthr : 7/10 < b
      · have hcons : capMatchedVals actionCapabilities (q :: qs) =
            b :: capMatchedVals actionCapabilities qs := by
          simp only [capMatchedVals, List.filterMap_cons, hb, if_pos hthr]
        rw [capStep, hb]
        simp only [if_pos hthr]
        rw [ih (t + b) (n + 1), hcons, List.sum_cons, List.length_cons]
        refine Prod.ext ?_ ?_
        · show t + b + _ = t + (b + _)
          ring
        · show n + 1 + _ = n + (_ + 1)
          omega
      · have hcons : capMatchedVals actionCapabilities (q :: qs) =
            capMatchedVals actionCapabilities qs := by
          simp only [capMatchedVals, List.filterMap_cons, hb, if_neg hthr]
        rw [capStep, hb]
        simp only [if_neg hthr]
        rw [ih t n, hcons]

theorem mem_capMatchedVals_bounds {actionCapabilities qs : List Str} {v : ℚ}
    (hv : v ∈ capMatchedVals actionCapabilities qs) : 0 ≤ v ∧ v ≤ 1 := by
  rw [capMatchedVals, List.mem_filterMap] at hv
  obtain ⟨qc, _, hqc⟩ := hv
  rcases hb : bestMatchFor actionCapabilities qc with _ | b
  · simp only [hb] at hqc
    exact absurd hqc (by simp)
  · simp only [hb] at hqc
    by_cases hthr : 7/10 < b
    · rw [if_pos hthr, Option.some_inj] at hqc
      exact hqc ▸ bestMatchFor_bounds hb
    · rw [if_neg hthr] at hqc
      exact absurd hqc (by simp)

theorem calculateCapabilitySimilarity_eq (actionCapabilities qs : List Str) :
    calculateCapabilitySimilarity actionCapabilities qs =
      if capMatchedVals actionCapabilities qs = [] then 0
      else (capMatchedVals actionCapabilities qs).sum /
        ((capMatchedVals actionCapabilities qs).length : ℚ) := by
  rw [calculateCapabilitySimilarity]
  rw [capFold_eq actionCapabilities qs 0 0]
  simp only [zero_add, Nat.zero_add]
  by_cases h : capMatchedVals actionCapabilities qs = []
  · simp [h]
  · rw [if_neg h, if_pos (List.length_pos.mpr h)]

theorem calculateCapabilitySimilarity_nonneg (actionCapabilities qs : List Str) :
    0 ≤ calculateCapabilitySimilarity actionCapabilities qs := by
  rw [calculateCapabilitySimilarity_eq]
  by_cases h : capMatchedVals actionCapabilities qs = []
  · simp [h]
  · rw [if_neg h]
    have hsum : 0 ≤ (capMatchedVals actionCapabilities qs).sum :=
      List.sum_nonneg fun v hv => (mem_capMatchedVals_bounds hv).1
    positivity

theorem calculateCapabilitySimilarity_le_one (actionCapabilities qs : List Str) :
    calculateCapabilitySimilarity actionCapabilities qs ≤ 1 := by
  rw [calculateCapabilitySimilarity_eq]
  by_cases h : capMatchedVals actionCapabilities qs = []
  · simp [h]
  · rw [if_neg h]
    set vals := capMatchedVals actionCapabilities qs with hvals
    have hlenpos : 0 < vals.length := List.length_pos.mpr h
    have hsum : vals.sum ≤ (vals.length : ℚ) * 1 := by
      have := List.sum_le_card_nsmul vals 1 fun v hv =>
        (mem_capMatchedVals_bounds (hvals ▸ hv)).2
      simpa [nsmul_eq_mul] using this
    rw [div_le_one (by exact_mod_cast hlenpos)]
    simpa using hsum

theorem calculateCapabilitySimilarity_nil_left (qs : List Str) :
    calculateCapabilitySimilarity [] qs = 0 := by
  rw [calculateCapabilitySimilarity_eq]
  have h : capMatchedVals [] qs = [] := by
    rw [capMatchedVals, List.filterMap_eq_nil_iff]
    intro qc _
    rw [bestMatchFor, List.foldl_nil]
    norm_num
  simp [h]

/-! ## The composite score -/

theorem weightOf_name : weightOf "name" = 4/10 := rfl

theorem weightOf_description : weightOf "description" = 3/10 := rfl

theorem weightOf_similes : weightOf "similes" = 1/10 := rfl

theorem weightOf_capabilities : weightOf "capabilities" = 2/10 := rfl

theorem weightedSum_eq_specCompositeSum (m : Matches) :
    weightedSum m = specCompositeSum m := by
  rw [weightedSum, matchEntries, specCompositeSum]
  rcases m.name with _ | nv <;> rcases m.description with _ | dv <;>
    rcases m.similes with _ | sv <;> rcases m.capabilities with _ | cv <;>
    simp [weightOf_name, weightOf_description, weightOf_similes, weightOf_capabilities]

theorem specCompositeSum_bounds {m : Matches} (h : MatchesBounded m) :
    0 ≤ specCompositeSum m ∧ specCompositeSum m ≤ 9/10 := by
  obtain ⟨hn, hd, hs, hc⟩ := h
  rw [specCompositeSum]
  have t1 : 0 ≤ (match m.name with | some v => v * (4/10) | none => (0 : ℚ)) ∧
      (match m.name with | some v => v * (4/10) | none => (0 : ℚ)) ≤ 4/10 := by
    rcases h : m.name with _ | v
    · norm_num
    · have hv := hn v h
      constructor <;> nlinarith [hv.1, hv.2]
  have t2 : 0 ≤ (match m.description with | some v => v * (3/10) | none => (0 : ℚ)) ∧
      (match m.description with | some v => v * (3/10) | none => (0 : ℚ)) ≤ 24/100 := by
    rcases h : m.description with _ | v
    · norm_num
    · have hv := hd v h
      constructor <;> nlinarith [hv.1, hv.2]
  have t3 : 0 ≤ (match m.similes with | some v => v * (1/10) | none => (0 : ℚ)) ∧
      (match m.similes with | some v => v * (1/10) | none => (0 : ℚ)) ≤ 6/100 := by
    rcases h : m.similes with _ | v
    · norm_num
    · have hv := hs v h
      constructor <;> nlinarith [hv.1, hv.2]
  have t4 : 0 ≤ (match m.capabilities with | some v => v * (2/10) | none => (0 : ℚ)) ∧
      (match m.capabilities with | some v => v * (2/10) | none => (0 : ℚ)) ≤ 2/10 := by
    rcases h : m.capabilities with _ | v
    · norm_num
    · have hv := hc v h
      constructor <;> nlinarith [hv.1, hv.2]
  constructor
  · linarith [t1.1, t2.1, t3.1, t4.1]
  · linarith [t1.2, t2.2, t3.2, t4.2]

theorem matchesBounded_empty : MatchesBounded {} := by
  refine ⟨?_, ?_, ?_, ?_⟩ <;> intro v hv <;> exact absurd hv (by simp)

/-! ## The four field blocks -/

theorem nameStep_ok_bounds {action : Action} {query : Query} {m m' : Matches}
    (hm : MatchesBounded m) (h : nameStep action query m = .ok m') : MatchesBounded m' := by
  rw [nameStep] at h
  split at h
  · split at h
    · split at h
      · simp only [Except.ok.injEq] at h
        subst h
        refine ⟨?_, hm.2.1, hm.2.2.1, hm.2.2.2⟩
        intro v hv
        simp only [Option.some_inj] at hv
        exact hv ▸ ⟨jaccardQ_nonneg _ _, jaccardQ_le_one _ _⟩
      · exact absurd h (by simp)
    · exact (Except.ok.inj h) ▸ hm
  · exact (Except.ok.inj h) ▸ hm

theorem descriptionStep_ok_bounds {action : Action} {query : Query} {m m' : Matches}
    (hm : MatchesBounded m) (h : descriptionStep action query m = .ok m') :
    MatchesBounded m' := by
  rw [descriptionStep] at h
  split at h
  · split at h
    · split at h
      · simp only [Except.ok.injEq] at h
        subst h
        refine ⟨hm.1, ?_, hm.2.2.1, hm.2.2.2⟩
        intro v hv
        simp only [Option.some_inj] at hv
        subst hv
        exact ⟨mul_nonneg (jaccardQ_nonneg _ _) (by norm_num),
          mul_le_of_le_one_left (by norm_num) (jaccardQ_le_one _ _)⟩
      · exact absurd h (by simp)
    · exact (Except.ok.inj h) ▸ hm
  · exact (Except.ok.inj h) ▸ hm

theorem similesStep_ok_bounds {action : Action} {query : Query} {m m' : Matches}
    (hm : MatchesBounded m) (h : similesStep action query m = .ok m') :
    MatchesBounded m' := by
  rw [similesStep] at h
  split at h
  · split at h
    · split at h
      · split at h
        · simp only [Except.ok.injEq] at h
          subst h
          refine ⟨hm.1, hm.2.1, ?_, hm.2.2.2⟩
          intro v hv
          simp only [Option.some_inj] at hv
          subst hv
          exact ⟨mul_nonneg (jaccardQ_nonneg _ _) (by norm_num),
            mul_le_of_le_one_left (by norm_num) (jaccardQ_le_one _ _)⟩
        · exact (Except.ok.inj h) ▸ hm
      · exact (Except.ok.inj h) ▸ hm
    · exact (Except.ok.inj h) ▸ hm
  · exact (Except.ok.inj h) ▸ hm

theorem capabilitiesStep_ok_bounds {action : Action} {query : Query} {m m' : Matches}
    (hm : MatchesBounded m) (h : capabilitiesStep action query m = .ok m') :
    MatchesBounded m' := by
  rw [capabilitiesStep] at h
  split at h
  · split at h
    · simp only [Except.ok.injEq] at h
      subst h
      refine ⟨hm.1, hm.2.1, hm.2.2.1, ?_⟩
      intro v hv
      simp only [Option.some_inj] at hv
      subst hv
      exact ⟨calculateCapabilitySimilarity_nonneg _ _, calculateCapabilitySimilarity_le_one _ _⟩
    · exact (Except.ok.inj h) ▸ hm
  · exact (Except.ok.inj h) ▸ hm

theorem scoreFieldsRun_ok_bounds {action : Action} {query : Query} {m : Matches}
    (h : scoreFieldsRun action query = .ok m) : MatchesBounded m := by
  rw [scoreFieldsRun] at h
  split at h
  · exact absurd h (by simp)
  · rename_i m1 h1
    split at h
    · exact absurd h (by simp)
    · rename_i m2 h2
      split at h
      · exact absurd h (by simp)
      · rename_i m3 h3
        exact capabilitiesStep_ok_bounds
          (similesStep_ok_bounds
            (descriptionStep_ok_bounds (nameStep_ok_bounds matchesBounded_empty h1) h2) h3) h

theorem calculateMatchScore_score_nonneg (action : Action) (query : Query) :
    0 ≤ (calculateMatchScore action query).score := by
  rw [calculateMatchScore]
  rcases h : scoreFieldsRun action query with m | m
  · norm_num
  · show 0 ≤ weightedSum m
    rw [weightedSum_eq_specCompositeSum]
    exact (specCompositeSum_bounds (scoreFieldsRun_ok_bounds h)).1

theorem calculateMatchScore_score_le_aux (action : Action) (query : Query) :
    (calculateMatchScore action query).score ≤ 9/10 := by
  rw [calculateMatchScore]
  rcases h : scoreFieldsRun action query with m | m
  · norm_num
  · show weightedSum m ≤ 9/10
    rw [weightedSum_eq_specCompositeSum]
    exact (specCompositeSum_bounds (scoreFieldsRun_ok_bounds h)).2

theorem nameStep_ok_of_name {action : Action} (query : Query) (m : Matches) {nm : Str}
    (hn : action.name = some nm) : ∃ m', nameStep action query m = .ok m' := by
  rw [nameStep]
  split
  · split
    · rw [hn]
      exact ⟨_, rfl⟩
    · exact ⟨m, rfl⟩
  · exact ⟨m, rfl⟩

theorem descriptionStep_ok_of_description {action : Action} (query : Query) (m : Matches)
    {d : Str} (hd : action.description = some d) :
    ∃ m', descriptionStep action query m = .ok m' := by
  rw [descriptionStep]
  split
  · split
    · rw [hd]
      exact ⟨_, rfl⟩
    · exact ⟨m, rfl⟩
  · exact ⟨m, rfl⟩

theorem similesStep_isOk (action : Action) (query : Query) (m : Matches) :
    ∃ m', similesStep action query m = .ok m' := by
  rw [similesStep]
  split
  · split
    · split
      · split
        · exact ⟨_, rfl⟩
        · exact ⟨m, rfl⟩
      · exact ⟨m, rfl⟩
    · exact ⟨m, rfl⟩
  · exact ⟨m, rfl⟩

theorem capabilitiesStep_isOk (action : Action) (query : Query) (m : Matches) :
    ∃ m', capabilitiesStep action query m = .ok m' := by
  rw [capabilitiesStep]
  split
  · split
    · exact ⟨_, rfl⟩
    · exact ⟨m, rfl⟩
  · exact ⟨m, rfl⟩

theorem scoreFieldsRun_ok_of_wellformed {action : Action} (query : Query) {nm d : Str}
    (hn : action.name = some nm) (hd : action.description = some d) :
    ∃ m, scoreFieldsRun action query = .ok m := by
  obtain ⟨m1, h1⟩ := nameStep_ok_of_name query {} hn
  obtain ⟨m2, h2⟩ := descriptionStep_ok_of_description query m1 hd
  obtain ⟨m3, h3⟩ := similesStep_isOk action query m2
  obtain ⟨m4, h4⟩ := capabilitiesStep_isOk action query m3
  refine ⟨m4, ?_⟩
  rw [scoreFieldsRun]
  simp only [h1, h2, h3, h4]

/-! ## Sorting and ranking -/

theorem isPrefix_filter {α : Type} (p : α → Bool) {l1 l2 : List α} (h : l1 <+: l2) :
    l1.filter p <+: l2.filter p := by
  obtain ⟨t, rfl⟩ := h
  exact ⟨t.filter p, (List.filter_append l1 t).symm⟩

theorem filter_orderedInsert_score (c : ℚ) (x : Action × MatchScore) :
    ∀ l : List (Action × MatchScore), List.Sorted scoreGe l →
      (List.orderedInsert scoreGe x l).filter (fun r => r.2.score = c) =
        if x.2.score = c then x :: l.filter (fun r => r.2.score = c)
        else l.filter (fun r => r.2.score = c) := by
  intro l
  induction l with
  | nil =>
    intro _
    by_cases hx : x.2.score = c <;>
      simp [List.orderedInsert, List.filter_cons, hx]
  | cons y ys ih =>
    intro hs
    rw [List.orderedInsert]
    by_cases hxy : scoreGe x y
    · rw [if_pos hxy]
      by_cases hx : x.2.score = c <;>
        simp [List.filter_cons, hx]
    · rw [if_neg hxy]
      have hylt : x.2.score < y.2.score := lt_of_not_le hxy
      have htail := ih (List.Sorted.of_cons hs)
      by_cases hx : x.2.score = c
      · have hy : y.2.score ≠ c := by
          intro hy
          rw [hx, hy] at hylt
          exact lt_irrefl c hylt
        rw [if_pos hx] at htail
        simp [List.filter_cons, hy, htail, hx]
      · rw [if_neg hx] at htail
        simp [List.filter_cons, htail, hx]

theorem sortByScoreDesc_sorted (l : List (Action × MatchScore)) :
    List.Pairwise scoreGe (sortByScoreDesc l) :=
  List.sorted_insertionSort scoreGe l

theorem sortByScoreDesc_perm (l : List (Action × MatchScore)) :
    List.Perm (sortByScoreDesc l) l :=
  List.perm_insertionSort scoreGe l

theorem sortByScoreDesc_length (l : List (Action × MatchScore)) :
    (sortByScoreDesc l).length = l.length :=
  (sortByScoreDesc_perm l).length_eq

theorem filter_sortByScoreDesc (c : ℚ) (l : List (Action × MatchScore)) :
    (sortByScoreDesc l).filter (fun r => r.2.score = c) =
      l.filter (fun r => r.2.score = c) := by
  induction l with
  | nil => rfl
  | cons x xs ih =>
    have h1 : sortByScoreDesc (x :: xs) = List.orderedInsert scoreGe x (sortByScoreDesc xs) := rfl
    rw [h1, filter_orderedInsert_score c x (sortByScoreDesc xs) (sortByScoreDesc_sorted xs)]
    by_cases hx : x.2.score = c <;>
      simp [List.filter_cons, hx, ih]

theorem jsSlice_of_nonneg {α : Type} (l : List α) {e : ℤ} (he : 0 ≤ e) :
    jsSlice l e = l.take e.toNat := by
  rw [jsSlice, if_neg (not_lt.mpr he)]

theorem rankActions_eq (actions : List Action) (query : Query) (s : ℚ) (m : ℤ) :
    rankActions actions query ⟨some s, some m⟩ =
      jsSlice (sortByScoreDesc ((scoredActions actions query).filter
        (fun r => s ≤ r.2.score))) m := rfl

/-! ## Field preservation across the blocks -/

theorem nameStep_eq_of {action : Action} {query : Query} {nm : Str} {ks : List Str}
    (hn : action.name = some nm) (hk : query.keywords = some ks) (hne : 0 < ks.length)
    (m : Matches) :
    nameStep action query m =
      .ok { m with name := some (jaccardQ (extractKeyTerms nm) (queryTermsOf ks)) } := by
  simp only [nameStep, hk, hn, if_pos hne]

theorem descriptionStep_ok_name {action : Action} {query : Query} {m m' : Matches}
    (h : descriptionStep action query m = .ok m') : m'.name = m.name := by
  rw [descriptionStep] at h
  split at h
  · split at h
    · split at h
      · simp only [Except.ok.injEq] at h
        subst h
        rfl
      · exact absurd h (by simp)
    · simp only [Except.ok.injEq] at h
      subst h
      rfl
  · simp only [Except.ok.injEq] at h
    subst h
    rfl

theorem descriptionStep_error_name {action : Action} {query : Query} {m m' : Matches}
    (h : descriptionStep action query m = .error m') : m'.name = m.name := by
  rw [descriptionStep] at h
  split at h
  · split at h
    · split at h
      · exact absurd h (by simp)
      · simp only [Except.error.injEq] at h
        subst h
        rfl
    · exact absurd h (by simp)
  · exact absurd h (by simp)

theorem similesStep_ok_name {action : Action} {query : Query} {m m' : Matches}
    (h : similesStep action query m = .ok m') : m'.name = m.name := by
  rw [similesStep] at h
  split at h
  · split at h
    · split at h
      · split at h
        · simp only [Except.ok.injEq] at h
          subst h
          rfl
        · simp only [Except.ok.injEq] at h
          subst h
          rfl
      · simp only [Except.ok.injEq] at h
        subst h
        rfl
    · simp only [Except.ok.injEq] at h
      subst h
      rfl
  · simp only [Except.ok.injEq] at h
    subst h
    rfl

theorem capabilitiesStep_ok_name {action : Action} {query : Query} {m m' : Matches}
    (h : capabilitiesStep action query m = .ok m') : m'.name = m.name := by
  rw [capabilitiesStep] at h
  split at h
  · split at h
    · simp only [Except.ok.injEq] at h
      subst h
      rfl
    · simp only [Except.ok.injEq] at h
      subst h
      rfl
  · simp only [Except.ok.injEq] at h
    subst h
    rfl

theorem capabilitiesStep_empty_caps {action : Action} {query : Query} {qcs : List Str}
    (hcap : action.capabilities = some []) (hq : query.capabilities = some qcs)
    (hql : 0 < qcs.length) (m : Matches) :
    capabilitiesStep action query m =
      .ok { m with capabilities := some (calculateCapabilitySimilarity [] qcs) } := by
  simp only [capabilitiesStep, hq, hcap, if_pos hql]

/-! ## Claim C1 -/

/-- A stable descending sort is unique: two lists with the same elements,
both sorted by score descending, in which each equal-score class appears in
the same order, are equal. This lets the ranking claim pin the output down
via the spec-side description of the sort alone. -/
theorem stable_sort_unique :
    ∀ l1 l2 : List (Action × MatchScore),
      List.Perm l1 l2 → List.Pairwise scoreGe l1 → List.Pairwise scoreGe l2 →
      (∀ c : ℚ, l1.filter (fun r => r.2.score = c) = l2.filter (fun r => r.2.score = c)) →
      l1 = l2 := by
  intro l1
  induction l1 with
  | nil =>
    intro l2 hperm _ _ _
    exact (hperm.symm.eq_nil).symm
  | cons x t1 ih =>
    intro l2 hperm hs1 hs2 hstab
    cases l2 with
    | nil =>
      have := hperm.length_eq
      simp at this
    | cons y t2 =>
      have hxy : x.2.score = y.2.score := by
        have hx2 : x ∈ y :: t2 := hperm.mem_iff.mp (List.mem_cons_self x t1)
        have hy1 : y ∈ x :: t1 := hperm.mem_iff.mpr (List.mem_cons_self y t2)
        rcases List.mem_cons.mp hx2 with h | h
        · rw [h]
        · have h1 : x.2.score ≤ y.2.score := List.rel_of_pairwise_cons hs2 h
          rcases List.mem_cons.mp hy1 with h' | h'
          · rw [h']
          · exact le_antisymm h1 (List.rel_of_pairwise_cons hs1 h')
      have hf := hstab x.2.score
      simp only [List.filter_cons, ← hxy, decide_True, if_true] at hf
      obtain ⟨hxy', _⟩ := List.cons.inj hf
      subst hxy'
      have hperm' : List.Perm t1 t2 := hperm.cons_inv
      have hstab' : ∀ c : ℚ,
          t1.filter (fun r => r.2.score = c) = t2.filter (fun r => r.2.score = c) := by
        intro c
        have hc := hstab c
        by_cases hxc : x.2.score = c
        · simp only [List.filter_cons, hxc, decide_True, if_true] at hc
          exact (List.cons.inj hc).2
        · simpa only [List.filter_cons, hxc, decide_False, if_false] using hc
      rw [ih t2 hperm' (List.Pairwise.of_cons hs1) (List.Pairwise.of_cons hs2) hstab']

/-- C1: for every catalog, query, `minScore` `s` and `maxResults` `m ≥ 0`,
`rankActions` returns exactly the scored descriptors with
`compositeScore ≥ s` — sorted by composite score descending, equal scores
keeping catalog order (each equal-score class of the output is a prefix of
that class in catalog order), truncated to at most `m` elements — and the
result length is exactly `min m (number of descriptors scoring ≥ s)`.
The final conjunct determines the output completely, also when truncation
bites: for any list `l` that rearranges the qualifying results into
descending score order while preserving catalog order inside each
equal-score class — the spec's stable descending sort, which
`stable_sort_unique` shows is unique — the output is exactly the first `m`
elements of `l`. -/
theorem rankActions_spec (actions : List Action) (query : Query) (s : ℚ) (m : ℤ) (c : ℚ)
    (hm : 0 ≤ m) :
    (rankActions actions query ⟨some s, some m⟩).length =
        min m.toNat (qualifying actions query s).length ∧
      List.Pairwise scoreGe (rankActions actions query ⟨some s, some m⟩) ∧
      (rankActions actions query ⟨some s, some m⟩).filter (fun r => s ≤ r.2.score) =
        rankActions actions query ⟨some s, some m⟩ ∧
      ((rankActions actions query ⟨some s, some m⟩).filter (fun r => r.2.score = c) <+:
        (qualifying actions query s).filter (fun r => r.2.score = c)) ∧
      ((qualifying actions query s).length ≤ m.toNat →
        List.Perm (rankActions actions query ⟨some s, some m⟩) (qualifying actions query s)) ∧
      (∀ l : List (Action × MatchScore),
        List.Perm l (qualifying actions query s) →
        List.Pairwise scoreGe l →
        (∀ c' : ℚ, l.filter (fun r => r.2.score = c') =
          (qualifying actions query s).filter (fun r => r.2.score = c')) →
        rankActions actions query ⟨some s, some m⟩ = l.take m.toNat) := by
  have hrw : rankActions actions query ⟨some s, some m⟩ =
      (sortByScoreDesc (qualifying actions query s)).take m.toNat := by
    rw [rankActions_eq, jsSlice_of_nonneg _ hm]
    rfl
  refine ⟨?_, ?_, ?_, ?_, ?_, ?_⟩
  · rw [hrw, List.length_take, sortByScoreDesc_length]
  · rw [hrw]
    exact List.Pairwise.sublist (List.take_sublist _ _)
      (sortByScoreDesc_sorted (qualifying actions query s))
  · rw [hrw]
    refine List.filter_eq_self.mpr ?_
    intro r hr
    have hmem : r ∈ qualifying actions query s :=
      (sortByScoreDesc_perm (qualifying actions query s)).mem_iff.mp
        (List.mem_of_mem_take hr)
    have hmem' : r ∈ (scoredActions actions query).filter (fun r => s ≤ r.2.score) := hmem
    exact (List.mem_filter.mp hmem').2
  · rw [hrw, ← filter_sortByScoreDesc c (qualifying actions query s)]
    exact isPrefix_filter _ (List.take_prefix _ _)
  · intro hle
    rw [hrw, List.take_of_length_le (by rw [sortByScoreDesc_length]; exact hle)]
    exact sortByScoreDesc_perm (qualifying actions query s)
  · intro l hperm hsort hstab
    have hl : l = sortByScoreDesc (qualifying actions query s) :=
      stable_sort_unique l (sortByScoreDesc (qualifying actions query s))
        (hperm.trans (sortByScoreDesc_perm (qualifying actions query s)).symm)
        hsort (sortByScoreDesc_sorted (qualifying actions query s))
        (fun c' => by rw [hstab c', filter_sortByScoreDesc c' (qualifying actions query s)])
    rw [hrw, hl]

/-! ## Claim C7 -/

/-- C7 amended: `rankActions` performs no validation of its ranking
parameters: the defaults `minScore = 0.3`, `maxResults = 50` apply exactly
when the caller omits the option, and an explicitly supplied negative
`maxResults` is silently accepted — `slice` then counts from the end, so the
last `|maxResults|` of the sorted qualifying results are dropped instead of a
precondition-violation error being raised. -/
theorem rankActions_no_validation (actions : List Action) (query : Query) (s : ℚ) (m : ℤ)
    (hm : m < 0) :
    rankActions actions query ⟨none, none⟩ =
        rankActions actions query ⟨some (3/10), some 50⟩ ∧
      (rankActions actions query ⟨some s, some m⟩).length =
        (qualifying actions query s).length - (-m).toNat ∧
      (rankActions actions query ⟨some s, some m⟩) <+:
        sortByScoreDesc (qualifying actions query s) := by
  refine ⟨rfl, ?_, ?_⟩
  · have hrw : rankActions actions query ⟨some s, some m⟩ =
        (sortByScoreDesc (qualifying actions query s)).take
          (((sortByScoreDesc (qualifying actions query s)).length : ℤ) + m).toNat := by
      rw [rankActions_eq, jsSlice, if_pos hm]
      rfl
    rw [hrw, List.length_take, sortByScoreDesc_length]
    omega
  · have hrw : rankActions actions query ⟨some s, some m⟩ =
        (sortByScoreDesc (qualifying actions query s)).take
          (((sortByScoreDesc (qualifying actions query s)).length : ℤ) + m).toNat := by
      rw [rankActions_eq, jsSlice, if_pos hm]
      rfl
    rw [hrw]
    exact List.take_prefix _ _

/-- C7 counterexample: an explicitly supplied `maxResults = -1` is not
surfaced as an error; `rankActions` silently returns the sorted qualifying
list with its last element dropped (2 descriptors qualify, 1 is returned). -/
theorem rankActions_negative_maxResults_cex :
    rankActions [{ name := some "aaa".toList }, { name := some "bbb".toList }] {}
        { minScore := some 0, maxResults := some (-1) } =
      [({ name := some "aaa".toList }, { score := 0, «matches» := {} })] ∧
    (qualifying [{ name := some "aaa".toList }, { name := some "bbb".toList }] {} 0).length
      = 2 := by
  constructor
  · with_unfolding_all decide
  · with_unfolding_all decide

/-! ## Claim C6 -/

/-- C6 counterexample: a descriptor with a valid `name` but missing
`description` fails while scoring; the `catch` forces `score = 0` but the
field-score map keeps the already-computed name score — it is not empty, as
the claim states. -/
theorem error_partial_matches_cex :
    calculateMatchScore { name := some "trade".toList } { keywords := some ["trade".toList] } =
        { score := 0, «matches» := { name := some 1 } } ∧
      ({ name := some 1 } : Matches) ≠ ({} : Matches) := by
  constructor
  · with_unfolding_all decide
  · decide

/-- C6 amended: a computation error while scoring one descriptor is contained
to that item: its result has `compositeScore = 0` and its field-score map
holds exactly the scores computed before the failure (not necessarily empty);
no exception escapes, and every other catalog entry is scored as usual. -/
theorem error_contained_amended (pre post : List Action) (bad : Action) (query : Query)
    (mm : Matches) (hbad : scoreFieldsRun bad query = .error mm) :
    scoredActions (pre ++ bad :: post) query =
        scoredActions pre query ++
          (bad, { score := 0, «matches» := mm }) :: scoredActions post query ∧
      (calculateMatchScore bad query).score = 0 := by
  have hbadscore : calculateMatchScore bad query = { score := 0, «matches» := mm } := by
    rw [calculateMatchScore, hbad]
  constructor
  · rw [scoredActions, List.map_append, List.map_cons, hbadscore]
    rfl
  · rw [hbadscore]

/-! ## Claim C2 -/

/-- C2: for every query and well-formed descriptor (its `name` and
`description` are present strings, as the data model requires), the composite
score equals the weighted sum of the present field scores with weights
name 0.4, description 0.3, similes 0.1, capabilities 0.2, and it lies in
`[0, 1]`. -/
theorem compositeScore_weighted_sum_and_bounds (action : Action) (query : Query)
    (nm d : Str) (hn : action.name = some nm) (hd : action.description = some d) :
    (calculateMatchScore action query).score =
        specCompositeSum (calculateMatchScore action query).matches ∧
      0 ≤ (calculateMatchScore action query).score ∧
      (calculateMatchScore action query).score ≤ 1 := by
  obtain ⟨m, hm⟩ := scoreFieldsRun_ok_of_wellformed query hn hd
  refine ⟨?_, calculateMatchScore_score_nonneg action query,
    le_trans (calculateMatchScore_score_le_aux action query) (by norm_num)⟩
  simp only [calculateMatchScore, hm]
  exact weightedSum_eq_specCompositeSum m

/-! ## Claim C3 -/

/-- C3: for every non-empty query capability list, the capability field score
is the mean of the best word-similarity values over exactly those query tags
whose best similarity strictly exceeds `0.7` (`capMatchedVals`), and `0` when
no tag passes the threshold. -/
theorem capabilitySimilarity_mean_of_matched (actionCapabilities qcs : List Str)
    (_hqs : qcs ≠ []) :
    calculateCapabilitySimilarity actionCapabilities qcs =
      if capMatchedVals actionCapabilities qcs = [] then 0
      else (capMatchedVals actionCapabilities qcs).sum /
        ((capMatchedVals actionCapabilities qcs).length : ℚ) :=
  calculateCapabilitySimilarity_eq actionCapabilities qcs

/-! ## Claim C5 -/

/-- C5 (code bug): the source's `jaccardSimilarity` does not guard the
division; on two empty sets it computes `0 / 0 = NaN` (modeled as `none`)
instead of the `0` the specification defines. -/
theorem jaccard_unguarded_empty_nan : jaccardSimilarity [] [] = none := rfl

/-! ## Claim C9 -/

/-- C9: because the description field score is pre-scaled by 0.8 and the
similes field score by 0.6 before the weights are applied, no composite score
can exceed `0.4 + 0.3·0.8 + 0.1·0.6 + 0.2 = 0.9`. -/
theorem compositeScore_le_nine_tenths (action : Action) (query : Query) :
    (calculateMatchScore action query).score ≤ 9/10 :=
  calculateMatchScore_score_le_aux action query

/-! ## Claim C10 -/

/-- C10: when the query has capabilities and the descriptor's `capabilities`
field is present but empty, the fallback derivation from name+description is
not applied (an empty array is truthy), so the capability field score is 0. -/
theorem empty_capabilities_no_fallback (action : Action) (query : Query) (nm d : Str)
    (qcs : List Str) (hn : action.name = some nm) (hd : action.description = some d)
    (hcap : action.capabilities = some []) (hq : query.capabilities = some qcs)
    (hqne : qcs ≠ []) :
    (calculateMatchScore action query).matches.capabilities = some 0 := by
  have hql : 0 < qcs.length := List.length_pos.mpr hqne
  obtain ⟨m1, h1⟩ := nameStep_ok_of_name query {} hn
  obtain ⟨m2, h2⟩ := descriptionStep_ok_of_description query m1 hd
  obtain ⟨m3, h3⟩ := similesStep_isOk action query m2
  have h4 := capabilitiesStep_empty_caps hcap hq hql m3
  have hrun : scoreFieldsRun action query =
      .ok { m3 with capabilities := some (calculateCapabilitySimilarity [] qcs) } := by
    rw [scoreFieldsRun]
    simp only [h1, h2, h3, h4]
  simp only [calculateMatchScore, hrun]
  rw [calculateCapabilitySimilarity_nil_left]

/-! ## Claim C4 -/

/-- C4 counterexample: descriptor name `"cat"`, query keyword `"cat!"`. The
code compares against the merely-lowercased keyword set `{"cat!"}` and gets
name score 0; the spec's formula — with the query side fully normalized —
gives 1 (normalization strips the `!`). -/
theorem nameScore_query_not_normalized_cex :
    (calculateMatchScore { name := some "cat".toList, description := some "meow sound".toList }
          { keywords := some ["cat!".toList] }).matches.name = some 0 ∧
      specNameScore { name := some "cat".toList, description := some "meow sound".toList }
        { keywords := some ["cat!".toList] } = some 1 := by
  constructor
  · with_unfolding_all decide
  · with_unfolding_all decide

/-- C4 amended: for every query with non-empty keywords and every descriptor
with a present name, the name field score is
`jaccard(normalize(descriptor.name), S)` where `S` is the set of the
lowercased query keywords taken verbatim — only lowercased and deduplicated,
not normalized (no punctuation stripping, no splitting, no length-≤-2
filtering). -/
theorem nameScore_lowercase_only (action : Action) (query : Query) (nm : Str) (ks : List Str)
    (hn : action.name = some nm) (hk : query.keywords = some ks) (hne : ks ≠ []) :
    (calculateMatchScore action query).matches.name =
      some (jaccardQ (extractKeyTerms nm) (jsSet (ks.map strLower))) := by
  have hql : 0 < ks.length := List.length_pos.mpr hne
  have h1 : nameStep action query {} =
      .ok { name := some (jaccardQ (extractKeyTerms nm) (queryTermsOf ks)) } :=
    nameStep_eq_of hn hk hql {}
  rcases h2 : descriptionStep action query
      { name := some (jaccardQ (extractKeyTerms nm) (queryTermsOf ks)) } with m2 | m2
  · have hrun : scoreFieldsRun action query = .error m2 := by
      rw [scoreFieldsRun]
      simp only [h1, h2]
    have hname := descriptionStep_error_name h2
    simp only [calculateMatchScore, hrun]
    exact hname
  · obtain ⟨m3, h3⟩ := similesStep_isOk action query m2
    obtain ⟨m4, h4⟩ := capabilitiesStep_isOk action query m3
    have hrun : scoreFieldsRun action query = .ok m4 := by
      rw [scoreFieldsRun]
      simp only [h1, h2, h3, h4]
    have hname := (capabilitiesStep_ok_name h4).trans
      ((similesStep_ok_name h3).trans (descriptionStep_ok_name h2))
    simp only [calculateMatchScore, hrun]
    exact hname

/-! ## Witnesses -/

/-- Witness for `rankActions_spec` at a concrete catalog of two descriptors,
`minScore = 0`, `maxResults = 2`. -/
theorem rankActions_spec_witness :
    (0 : ℤ) ≤ 2 ∧
      (let actions : List Action := [{ name := some "aaa".toList }, { name := some "bbb".toList }]
       let query : Query := {}
       (rankActions actions query ⟨some 0, some 2⟩).length =
           min (2 : ℤ).toNat (qualifying actions query 0).length ∧
         List.Pairwise scoreGe (rankActions actions query ⟨some 0, some 2⟩) ∧
         (rankActions actions query ⟨some 0, some 2⟩).filter (fun r => 0 ≤ r.2.score) =
           rankActions actions query ⟨some 0, some 2⟩ ∧
         ((rankActions actions query ⟨some 0, some 2⟩).filter (fun r => r.2.score = 0) <+:
           (qualifying actions query 0).filter (fun r => r.2.score = 0)) ∧
         ((qualifying actions query 0).length ≤ (2 : ℤ).toNat →
           List.Perm (rankActions actions query ⟨some 0, some 2⟩)
             (qualifying actions query 0)) ∧
         (∀ l : List (Action × MatchScore),
           List.Perm l (qualifying actions query 0) →
           List.Pairwise scoreGe l →
           (∀ c' : ℚ, l.filter (fun r => r.2.score = c') =
             (qualifying actions query 0).filter (fun r => r.2.score = c')) →
           rankActions actions query ⟨some 0, some 2⟩ = l.take (2 : ℤ).toNat)) :=
  ⟨by decide,
    rankActions_spec [{ name := some "aaa".toList }, { name := some "bbb".toList }] {} 0 2 0
      (by decide)⟩

/-- Witness for `rankActions_no_validation` at `maxResults = -1`. -/
theorem rankActions_no_validation_witness :
    (-1 : ℤ) < 0 ∧
      (let actions : List Action := [{ name := some "aaa".toList }, { name := some "bbb".toList }]
       let query : Query := {}
       rankActions actions query ⟨none, none⟩ =
           rankActions actions query ⟨some (3/10), some 50⟩ ∧
         (rankActions actions query ⟨some 0, some (-1)⟩).length =
           (qualifying actions query 0).length - (-(-1 : ℤ)).toNat ∧
         (rankActions actions query ⟨some 0, some (-1)⟩) <+:
           sortByScoreDesc (qualifying actions query 0)) :=
  ⟨by decide,
    rankActions_no_validation [{ name := some "aaa".toList }, { name := some "bbb".toList }] {}
      0 (-1) (by decide)⟩

/-- Witness for `error_contained_amended`: the malformed descriptor (missing
`description`) in the middle of a catalog of two well-formed neighbours. -/
theorem error_contained_amended_witness :
    scoreFieldsRun { name := some "trade".toList } { keywords := some ["trade".toList] } =
        .error { name := some 1 } ∧
      (scoredActions ([{ name := some "aaa".toList, description := some "xyzw word".toList }] ++
            { name := some "trade".toList } ::
              [{ name := some "bbbb".toList, description := some "more words".toList }])
          { keywords := some ["trade".toList] } =
        scoredActions [{ name := some "aaa".toList, description := some "xyzw word".toList }]
            { keywords := some ["trade".toList] } ++
          ({ name := some "trade".toList },
              { score := 0, «matches» := { name := some 1 } }) ::
            scoredActions [{ name := some "bbbb".toList, description := some "more words".toList }]
              { keywords := some ["trade".toList] } ∧
        (calculateMatchScore { name := some "trade".toList }
          { keywords := some ["trade".toList] }).score = 0) :=
  ⟨by with_unfolding_all rfl,
    error_contained_amended
      [{ name := some "aaa".toList, description := some "xyzw word".toList }]
      [{ name := some "bbbb".toList, description := some "more words".toList }]
      { name := some "trade".toList } { keywords := some ["trade".toList] }
      { name := some 1 } (by with_unfolding_all rfl)⟩

/-- Witness for `compositeScore_weighted_sum_and_bounds` at a concrete
well-formed descriptor and query. -/
theorem compositeScore_weighted_sum_and_bounds_witness :
    (let action : Action :=
       { name := some "Market Analyzer".toList,
         description := some "predicts stock trends".toList,
         capabilities := some ["market_analysis".toList] }
     let query : Query :=
       { keywords := some ["market".toList, "trends".toList],
         capabilities := some ["market_analysis".toList] }
     action.name = some "Market Analyzer".toList ∧
       action.description = some "predicts stock trends".toList ∧
       ((calculateMatchScore action query).score =
           specCompositeSum (calculateMatchScore action query).matches ∧
         0 ≤ (calculateMatchScore action query).score ∧
         (calculateMatchScore action query).score ≤ 1)) :=
  ⟨rfl, rfl,
    compositeScore_weighted_sum_and_bounds
      { name := some "Market Analyzer".toList,
        description := some "predicts stock trends".toList,
        capabilities := some ["market_analysis".toList] }
      { keywords := some ["market".toList, "trends".toList],
        capabilities := some ["market_analysis".toList] }
      "Market Analyzer".toList "predicts stock trends".toList rfl rfl⟩

/-- Witness for `capabilitySimilarity_mean_of_matched`: one query tag whose
best similarity is exactly `0.7` — it is not counted (strict threshold), so
the score is the `if`'s first branch, `0`. -/
theorem capabilitySimilarity_mean_of_matched_witness :
    (["abcdefg".toList] ≠ ([] : List Str)) ∧
      calculateCapabilitySimilarity ["abcdefgxyz".toList] ["abcdefg".toList] =
        (if capMatchedVals ["abcdefgxyz".toList] ["abcdefg".toList] = [] then 0
         else (capMatchedVals ["abcdefgxyz".toList] ["abcdefg".toList]).sum /
           ((capMatchedVals ["abcdefgxyz".toList] ["abcdefg".toList]).length : ℚ)) :=
  ⟨by decide,
    capabilitySimilarity_mean_of_matched ["abcdefgxyz".toList] ["abcdefg".toList] (by decide)⟩

/-- Witness for `empty_capabilities_no_fallback` at a concrete descriptor
whose `capabilities` field is the empty list. -/
theorem empty_capabilities_no_fallback_witness :
    (let action : Action :=
       { name := some "aaa".toList, description := some "bbb".toList,
         capabilities := some [] }
     let query : Query := { capabilities := some ["cap".toList] }
     action.name = some "aaa".toList ∧
       action.description = some "bbb".toList ∧
       action.capabilities = some [] ∧
       query.capabilities = some ["cap".toList] ∧
       ["cap".toList] ≠ ([] : List Str) ∧
       (calculateMatchScore action query).matches.capabilities = some 0) :=
  ⟨rfl, rfl, rfl, rfl, by decide,
    empty_capabilities_no_fallback
      { name := some "aaa".toList, description := some "bbb".toList, capabilities := some [] }
      { capabilities := some ["cap".toList] }
      "aaa".toList "bbb".toList ["cap".toList] rfl rfl rfl rfl (by decide)⟩

/-- Witness for `nameScore_lowercase_only` at the counterexample inputs. -/
theorem nameScore_lowercase_only_witness :
    (let action : Action :=
       { name := some "cat".toList, description := some "meow sound".toList }
     let query : Query := { keywords := some ["cat!".toList] }
     action.name = some "cat".toList ∧
       query.keywords = some ["cat!".toList] ∧
       ["cat!".toList] ≠ ([] : List Str) ∧
       (calculateMatchScore action query).matches.name =
         some (jaccardQ (extractKeyTerms "cat".toList)
           (jsSet (["cat!".toList].map strLower)))) :=
  ⟨rfl, rfl, by decide,
    nameScore_lowercase_only
      { name := some "cat".toList, description := some "meow sound".toList }
      { keywords := some ["cat!".toList] }
      "cat".toList ["cat!".toList] rfl rfl (by decide)⟩

/-! ## Levenshtein distance: the matrix computes the prefix edit distance -/

theorem perd_zero_left (a b : Str) (j : ℕ) : perd a b 0 j = j := by
  rcases j with _ | j <;> simp [perd]

theorem perd_zero_right (a b : Str) (i : ℕ) : perd a b i 0 = i := by
  simp [perd]

theorem levCost_symm (a b : Str) (i j : ℕ) : levCost a b i j = levCost b a j i := by
  rw [levCost, levCost]
  by_cases h : chrAt a i = chrAt b j
  · rw [if_pos h, if_pos h.symm]
  · rw [if_neg h, if_neg (fun h' => h h'.symm)]

theorem perd_succ_succ (a b : Str) (i j : ℕ) :
    perd a b (i + 1) (j + 1) =
      min (perd a b i (j + 1) + 1)
        (min (perd a b (i + 1) j + 1) (perd a b i j + levCost a b i j)) := by
  simp [perd]

theorem perd_symm_aux (a b : Str) :
    ∀ n i j, i + j ≤ n → perd a b i j = perd b a j i := by
  intro n
  induction n with
  | zero =>
    intro i j h
    have hi : i = 0 := by omega
    have hj : j = 0 := by omega
    subst hi; subst hj
    rw [perd_zero_right, perd_zero_left]
  | succ n ih =>
    intro i j h
    rcases j with _ | j
    · rw [perd_zero_right, perd_zero_left]
    · rcases i with _ | i
      · rw [perd_zero_left, perd_zero_right]
      · have h1 : perd a b i (j + 1) = perd b a (j + 1) i := ih i (j + 1) (by omega)
        have h2 : perd a b (i + 1) j = perd b a j (i + 1) := ih (i + 1) j (by omega)
        have h3 : perd a b i j = perd b a j i := ih i j (by omega)
        rw [perd_succ_succ a b i j, perd_succ_succ b a j i]
        rw [h1, h2, h3, levCost_symm a b i j]
        rw [min_left_comm]

theorem perd_symm (a b : Str) (i j : ℕ) : perd a b i j = perd b a j i :=
  perd_symm_aux a b (i + j) i j le_rfl

theorem perd_diag (a : Str) : ∀ i, perd a a i i = 0 := by
  intro i
  induction i with
  | zero => rw [perd_zero_right]
  | succ i ih =>
    rw [perd_succ_succ, ih, levCost, if_pos rfl]
    simp

theorem chrAt_of_drop_cons {s : Str} {i : ℕ} {c : Char} {cs : List Char}
    (h : s.drop i = c :: cs) : chrAt s i = c := by
  have h0 : (s.drop i)[0]? = s[i + 0]? := List.getElem?_drop s i 0
  rw [h] at h0
  simp only [List.getElem?_cons_zero, Nat.add_zero] at h0
  rw [chrAt, List.getD_eq_getElem?_getD, ← h0]
  rfl

theorem drop_succ_of_drop_cons {s : Str} {i : ℕ} {c : Char} {cs : List Char}
    (h : s.drop i = c :: cs) : s.drop (i + 1) = cs := by
  have : (s.drop i).drop 1 = s.drop (i + 1) := List.drop_drop 1 i s
  rw [h] at this
  simpa using this.symm

theorem levNextRow_spec (a b : Str) (j : ℕ) :
    ∀ (d : List Char) (i0 : ℕ), a.drop i0 = d →
      levNextRow (chrAt b j) d (perd a b i0 (j + 1))
          ((List.range' i0 (d.length + 1)).map (fun i => perd a b i j)) =
        (List.range' (i0 + 1) d.length).map (fun i => perd a b i (j + 1)) := by
  intro d
  induction d with
  | nil =>
    intro i0 _
    simp [levNextRow]
  | cons c cs ih =>
    intro i0 hdrop
    have hc : chrAt a i0 = c := chrAt_of_drop_cons hdrop
    have hdrop' : a.drop (i0 + 1) = cs := drop_succ_of_drop_cons hdrop
    have hr : List.range' i0 (cs.length + 1 + 1) =
        i0 :: (i0 + 1) :: List.range' (i0 + 2) cs.length := by
      rw [List.range'_succ, List.range'_succ]
    rw [List.length_cons, hr, List.map_cons, List.map_cons, levNextRow]
    have hv : min (perd a b i0 (j + 1) + 1)
        (min (perd a b (i0 + 1) j + 1) (perd a b i0 j + if c = chrAt b j then 0 else 1)) =
        perd a b (i0 + 1) (j + 1) := by
      rw [perd_succ_succ, levCost, hc]
    rw [hv]
    have hrec := ih (i0 + 1) hdrop'
    have hr2 : List.range' (i0 + 1) (cs.length + 1) =
        (i0 + 1) :: List.range' (i0 + 2) cs.length := by
      rw [List.range'_succ]
    rw [hr2, List.map_cons] at hrec
    rw [hrec, List.range'_succ, List.map_cons]

theorem levRows_spec (a b : Str) :
    ∀ (bs : List Char) (j : ℕ), b.drop j = bs → j + bs.length = b.length →
      levRows a bs j ((List.range (a.length + 1)).map (fun i => perd a b i j)) =
        (List.range (a.length + 1)).map (fun i => perd a b i b.length) := by
  intro bs
  induction bs with
  | nil =>
    intro j _ harith
    have hj : j = b.length := by simpa using harith
    subst hj
    rfl
  | cons bj bs ih =>
    intro j hdrop harith
    have hbj : chrAt b j = bj := chrAt_of_drop_cons hdrop
    have hdrop' : b.drop (j + 1) = bs := drop_succ_of_drop_cons hdrop
    rw [levRows]
    have hrow : (j + 1) :: levNextRow bj a (j + 1)
        ((List.range (a.length + 1)).map (fun i => perd a b i j)) =
        (List.range (a.length + 1)).map (fun i => perd a b i (j + 1)) := by
      have hspec := levNextRow_spec a b j a 0 (by rw [List.drop_zero])
      rw [perd_zero_left] at hspec
      rw [← hbj, List.range_eq_range', hspec]
      rw [List.range'_succ, List.map_cons, perd_zero_left]
    rw [hrow]
    refine ih (j + 1) hdrop' ?_
    simp only [List.length_cons] at harith
    omega

theorem getD_map_range (n : ℕ) (f : ℕ → ℕ) :
    ((List.range (n + 1)).map f).getD n 0 = f n := by
  rw [List.getD_eq_getElem?_getD, List.getElem?_map,
    List.getElem?_range (Nat.lt_succ_self n)]
  rfl

theorem lev_eq_perd (a b : Str) :
    levenshteinDistance a b = perd a b a.length b.length := by
  rw [levenshteinDistance]
  by_cases ha : a.length = 0
  · rw [if_pos ha, ha, perd_zero_left]
  · rw [if_neg ha]
    by_cases hb : b.length = 0
    · rw [if_pos hb, hb, perd_zero_right]
    · rw [if_neg hb]
      have h0 : (List.range (a.length + 1)).map (fun i => perd a b i 0) =
          List.range (a.length + 1) := by
        have : ∀ i ∈ List.range (a.length + 1), perd a b i 0 = i := fun i _ =>
          perd_zero_right a b i
        rw [List.map_congr_left this, List.map_id']
      have hrows := levRows_spec a b b 0 (List.drop_zero b) (by simp)
      rw [← h0, hrows, getD_map_range]

/-! ## Claim C8 -/

/-- C8: `levenshteinDistance` is symmetric, zero on equal strings, equals the
length of the other string when one side is empty, and the reference fixture
`levenshtein("kitten", "sitting") = 3` holds. -/
theorem levenshtein_properties :
    (∀ a b : Str, levenshteinDistance a b = levenshteinDistance b a) ∧
      (∀ a : Str, levenshteinDistance a a = 0) ∧
      (∀ b : Str, levenshteinDistance [] b = b.length) ∧
      levenshteinDistance "kitten".toList "sitting".toList = 3 := by
  refine ⟨?_, ?_, ?_, ?_⟩
  · intro a b
    rw [lev_eq_perd, lev_eq_perd, perd_symm]
  · intro a
    rw [lev_eq_perd, perd_diag]
  · intro b
    rw [levenshteinDistance]
    simp
  · decide
